import Mathlib

/-!
Shallow embedding of the `cstr_core` library (`src/lib.rs`): an owned
nul-terminated byte buffer (`CString`), a borrowed view (`CStr`), the raw
scan (`strlen`), the escape encoder (`ascii::escape_default`), and the
error types, together with proofs of the specification claims.

Bytes are modelled as `Nat` (a byte is a value `< 256`; the operations the
claims concern never overflow, so no wraparound arithmetic is needed except
in `escape_default`, where the source's `c >> 4` and `c & 0xf` on a `u8`
are exactly `c / 16` and `c % 16`). Owned and borrowed byte storage both
become `List Nat`; raw pointers are modelled by the byte sequence stored
at the pointed-to address.
-/

set_option maxHeartbeats 1000000
set_option maxRecDepth 4096

/-- Models `memchr::memchr needle hay`: index of the first occurrence of
`needle`, scanning left to right. -/
def memchr (needle : Nat) : List Nat → Option Nat
  | [] => none
  | b :: rest =>
    if b = needle then some 0 else (memchr needle rest).map (· + 1)

/-- Models the `strlen` helper (src/lib.rs lines 40-47): count of bytes
before the first zero. The source's precondition is that a zero exists in
reachable memory; the `[]` case is unreachable under that precondition. -/
def strlen : List Nat → Nat
  | [] => 0
  | b :: rest => if b = 0 then 0 else strlen rest + 1

/-- Models the local `hexify` function inside `ascii::escape_default`. -/
def hexify (b : Nat) : Nat := if b ≤ 9 then 48 + b else 97 + b - 10

/-- Models `ascii::escape_default`: the four-byte `data` array paired with
the length of the populated range `0..len`. Byte literals: `\` = 92,
`t` = 116, `r` = 114, `n` = 110, `'` = 39, `"` = 34. -/
def escape_default (c : Nat) : List Nat × Nat :=
  if c = 9 then ([92, 116, 0, 0], 2)
  else if c = 13 then ([92, 114, 0, 0], 2)
  else if c = 10 then ([92, 110, 0, 0], 2)
  else if c = 92 then ([92, 92, 0, 0], 2)
  else if c = 39 then ([92, 39, 0, 0], 2)
  else if c = 34 then ([92, 34, 0, 0], 2)
  else if 32 ≤ c ∧ c ≤ 126 then ([c, 0, 0, 0], 1)
  else ([92, 120, hexify (c / 16), hexify (c % 16)], 4)

/-- The full sequence yielded by the `EscapeDefault` iterator: the bytes
`data[i]` for `i` in the range `0..len`. -/
def escapeItems (c : Nat) : List Nat :=
  (escape_default c).1.take (escape_default c).2

/-- Models the owned buffer `CString` (src/lib.rs lines 205-212): its
boxed byte slice. The Rust invariants are comments on the struct, not
enforced by the type, so they appear here as the predicate `CString.Inv`. -/
structure CString where
  inner : List Nat
deriving DecidableEq

/-- Models the borrowed view `CStr` (src/lib.rs lines 277-284): the
referenced byte slice, terminator included. -/
structure CStr where
  inner : List Nat
deriving DecidableEq

/-- Models `NulError(usize, Vec<u8>)`. -/
structure NulError where
  pos : Nat
  bytes : List Nat
deriving DecidableEq

/-- Models the enum `FromBytesWithNulErrorKind`. -/
inductive FromBytesWithNulErrorKind where
  | interiorNul (pos : Nat)
  | notNulTerminated
deriving DecidableEq

/-- Models `FromBytesWithNulError`. -/
structure FromBytesWithNulError where
  kind : FromBytesWithNulErrorKind
deriving DecidableEq

/-- Models `core::str::Utf8Error`: offset of the first invalid sequence
and, when known, how many bytes it spans (`none` = input ended early). -/
structure Utf8Error where
  valid_up_to : Nat
  error_len : Option Nat
deriving DecidableEq

/-- Models `IntoStringError`. -/
structure IntoStringError where
  inner : CString
  error : Utf8Error
deriving DecidableEq

/-- Models `FromBytesWithNulError::interior_nul`. -/
def FromBytesWithNulError.interior_nul (pos : Nat) : FromBytesWithNulError :=
  ⟨.interiorNul pos⟩

/-- Models `FromBytesWithNulError::not_nul_terminated`. -/
def FromBytesWithNulError.not_nul_terminated : FromBytesWithNulError :=
  ⟨.notNulTerminated⟩

/-- Models `NulError::nul_position`. -/
def NulError.nul_position (e : NulError) : Nat := e.pos

/-- Models `NulError::into_vec`. -/
def NulError.into_vec (e : NulError) : List Nat := e.bytes

/-- Models `CString::from_vec_unchecked`: push a trailing zero. -/
def CString.from_vec_unchecked (v : List Nat) : CString := ⟨v ++ [0]⟩

/-- Models `CString::_new` (and so `CString::new`): scan for a zero with
`memchr`; on a hit fail with `NulError(i, bytes)`, otherwise append the
terminator. -/
def CString.new (bytes : List Nat) : Except NulError CString :=
  match memchr 0 bytes with
  | some i => .error ⟨i, bytes⟩
  | none => .ok (CString.from_vec_unchecked bytes)

/-- Models `CString::into_raw`: the exported allocation holds exactly the
inner bytes. -/
def CString.into_raw (c : CString) : List Nat := c.inner

/-- Models `CString::from_raw`: recompute the length as `strlen ptr + 1`
(terminator included) and retake that slice. -/
def CString.from_raw (mem : List Nat) : CString :=
  ⟨mem.take (strlen mem + 1)⟩

/-- Models `CString::as_bytes`: the inner slice without its last byte. -/
def CString.as_bytes (c : CString) : List Nat := c.inner.dropLast

/-- Models `CString::as_bytes_with_nul`: the whole inner slice. -/
def CString.as_bytes_with_nul (c : CString) : List Nat := c.inner

/-- Models `CString::into_bytes`: the inner vector with the trailing nul
popped. -/
def CString.into_bytes (c : CString) : List Nat := c.inner.dropLast

/-- Models `CString::into_bytes_with_nul`. -/
def CString.into_bytes_with_nul (c : CString) : List Nat := c.inner

/-- Models `CStr::from_bytes_with_nul_unchecked`: a cast, no checks. -/
def CStr.from_bytes_with_nul_unchecked (bytes : List Nat) : CStr := ⟨bytes⟩

/-- Models `CStr::from_bytes_with_nul`: find the first zero; reject with
`interior_nul` when it is not the final byte, with `not_nul_terminated`
when there is none. -/
def CStr.from_bytes_with_nul (bytes : List Nat) :
    Except FromBytesWithNulError CStr :=
  match memchr 0 bytes with
  | some nul_pos =>
    if nul_pos + 1 ≠ bytes.length then
      .error (FromBytesWithNulError.interior_nul nul_pos)
    else
      .ok (CStr.from_bytes_with_nul_unchecked bytes)
  | none => .error FromBytesWithNulError.not_nul_terminated

/-- Models `CStr::from_ptr`: length via `strlen`, then the slice of
`strlen + 1` bytes starting at the pointer. -/
def CStr.from_ptr (mem : List Nat) : CStr :=
  ⟨mem.take (strlen mem + 1)⟩

/-- Models `CStr::to_bytes_with_nul`: the whole referenced slice. -/
def CStr.to_bytes_with_nul (v : CStr) : List Nat := v.inner

/-- Models `CStr::to_bytes`: the referenced slice without its last byte. -/
def CStr.to_bytes (v : CStr) : List Nat := v.inner.dropLast

/-- Models `<CString as Deref>::deref` / `CString::as_c_str`:
`CStr::from_bytes_with_nul_unchecked(self.as_bytes_with_nul())`. -/
def CString.as_c_str (c : CString) : CStr :=
  CStr.from_bytes_with_nul_unchecked c.as_bytes_with_nul

/-- Models `<CStr as ToOwned>::to_owned`: copy `to_bytes_with_nul` into a
new owned buffer. -/
def CStr.to_owned (v : CStr) : CString := ⟨v.to_bytes_with_nul⟩

/-- Models `<&CStr as Default>::default`: `CStr::from_ptr` over the static
one-byte slice `[0]`. -/
def defaultCStr : CStr := CStr.from_ptr [0]

/-- Models `<CString as Default>::default`: `default::<&CStr>().to_owned()`. -/
def defaultCString : CString := defaultCStr.to_owned

/-- Models `CStr::into_c_string` (via `Box<CStr>`): reuse the same bytes. -/
def CStr.into_c_string (v : CStr) : CString := ⟨v.inner⟩

/-- Models `CString::into_boxed_c_str`: the boxed view over the same
bytes. -/
def CString.into_boxed_c_str (c : CString) : CStr := ⟨c.inner⟩

/-- The documented invariant of `CString` (src/lib.rs lines 208-210 and
the spec's data model): length at least one, final byte zero, and no
other byte zero. -/
def CString.Inv (c : CString) : Prop :=
  1 ≤ c.inner.length ∧ c.inner.getLast? = some 0 ∧ 0 ∉ c.inner.dropLast

/-- The corresponding validity predicate for a view: the referenced slice
ends in its only zero byte. -/
def CStr.Inv (v : CStr) : Prop :=
  1 ≤ v.inner.length ∧ v.inner.getLast? = some 0 ∧ 0 ∉ v.inner.dropLast

instance (c : CString) : Decidable c.Inv := by
  unfold CString.Inv; infer_instance

instance (v : CStr) : Decidable v.Inv := by
  unfold CStr.Inv; infer_instance

/-- Models lexicographic comparison of byte slices, as used by the derived
`Ord` on `CString.inner` and the manual `Ord for CStr` on `to_bytes`. -/
def compareBytes : List Nat → List Nat → Ordering
  | [], [] => .eq
  | [], _ :: _ => .lt
  | _ :: _, [] => .gt
  | a :: as, b :: bs =>
    match compare a b with
    | .eq => compareBytes as bs
    | o => o

/-- Models `<CStr as PartialEq>::eq`: equality of `to_bytes`. -/
def CStr.eqv (a b : CStr) : Bool := a.to_bytes == b.to_bytes

/-- Models `<CStr as Ord>::cmp`: comparison of `to_bytes`. -/
def CStr.cmp (a b : CStr) : Ordering := compareBytes a.to_bytes b.to_bytes

/-- Models the derived `PartialEq` on `CString`: equality of the full
inner slices. -/
def CString.eqv (a b : CString) : Bool := a.inner == b.inner

/-- Models the derived `Ord` on `CString`: comparison of the full inner
slices. -/
def CString.cmp (a b : CString) : Ordering := compareBytes a.inner b.inner

/-- Models the data fed to the hasher by the derived `Hash` on `CStr`
(a slice hash: the length followed by each byte). -/
def CStr.hashInput (v : CStr) : List Nat := v.inner.length :: v.inner

/-- Models the data fed to the hasher by the derived `Hash` on `CString`
(the boxed slice hashes like a slice: length, then each byte). -/
def CString.hashInput (c : CString) : List Nat := c.inner.length :: c.inner

/-- Models the continuation-byte test of the core UTF-8 validator: a byte
in `0x80 ..= 0xBF`. -/
def utf8Cont (b : Nat) : Bool := 128 ≤ b && b ≤ 191

/-- Modelled from the core library used by `into_string` / `to_str` /
`to_string_lossy` (std's `run_utf8_validation`, a dependency of this
repository, not under src/): examine one UTF-8 sequence starting with
byte `b`, the following bytes being `rest`. `ok n` means a well-formed
sequence of `n` bytes; `error (some k)` an invalid sequence spanning `k`
bytes; `error none` an incomplete sequence cut off by the end of input. -/
def utf8Step (b : Nat) (rest : List Nat) : Except (Option Nat) Nat :=
  if b < 128 then .ok 1
  else if 194 ≤ b && b ≤ 223 then
    match rest with
    | [] => .error none
    | c :: _ => if utf8Cont c then .ok 2 else .error (some 1)
  else if 224 ≤ b && b ≤ 239 then
    match rest with
    | [] => .error none
    | c :: rest2 =>
      if (b == 224 && 160 ≤ c && c ≤ 191) ||
         (225 ≤ b && b ≤ 236 && utf8Cont c) ||
         (b == 237 && 128 ≤ c && c ≤ 159) ||
         (238 ≤ b && b ≤ 239 && utf8Cont c) then
        match rest2 with
        | [] => .error none
        | d :: _ => if utf8Cont d then .ok 3 else .error (some 2)
      else .error (some 1)
  else if 240 ≤ b && b ≤ 244 then
    match rest with
    | [] => .error none
    | c :: rest2 =>
      if (b == 240 && 144 ≤ c && c ≤ 191) ||
         (241 ≤ b && b ≤ 243 && utf8Cont c) ||
         (b == 244 && 128 ≤ c && c ≤ 143) then
        match rest2 with
        | [] => .error none
        | d :: rest3 =>
          if utf8Cont d then
            match rest3 with
            | [] => .error none
            | e :: _ => if utf8Cont e then .ok 4 else .error (some 3)
          else .error (some 2)
      else .error (some 1)
  else .error (some 1)

/-- Modelled from the core UTF-8 validator's main loop: `none` when the
whole input is valid UTF-8, otherwise the `Utf8Error` (offset of the first
invalid sequence, and its span when the input did not simply end early). -/
def utf8Validate : List Nat → Option Utf8Error
  | [] => none
  | b :: rest =>
    match utf8Step b rest with
    | .error el => some ⟨0, el⟩
    | .ok n =>
      match utf8Validate (rest.drop (n - 1)) with
      | none => none
      | some u => some ⟨u.valid_up_to + n, u.error_len⟩
termination_by l => l.length
decreasing_by simp [List.length_drop]; omega

/-- Models `alloc::string::FromUtf8Error`: the rejected bytes plus the
`Utf8Error`. -/
structure FromUtf8Error where
  bytes : List Nat
  error : Utf8Error
deriving DecidableEq

/-- Models `String::from_utf8` (a dependency of `CString::into_string`):
validate, returning either the bytes (now known UTF-8) or the error
carrying the original bytes. -/
def string_from_utf8 (v : List Nat) : Except FromUtf8Error (List Nat) :=
  match utf8Validate v with
  | none => .ok v
  | some e => .error ⟨v, e⟩

/-- Models `CString::into_string`: `String::from_utf8(self.into_bytes())`,
re-wrapping a failure's recovered bytes with `from_vec_unchecked`. -/
def CString.into_string (c : CString) : Except IntoStringError (List Nat) :=
  match string_from_utf8 c.into_bytes with
  | .ok s => .ok s
  | .error e => .error ⟨CString.from_vec_unchecked e.bytes, e.error⟩

/-- Models `alloc::borrow::Cow`: a borrowed or an owned result, each
carrying the UTF-8 bytes of the produced string. -/
inductive Cow where
  | borrowed (s : List Nat)
  | owned (s : List Nat)
deriving DecidableEq

/-- Modelled from `String::from_utf8_lossy`'s chunk loop (a dependency of
`CStr::to_string_lossy`): each invalid or truncated sequence is replaced
by U+FFFD (UTF-8 bytes `239, 191, 189`). The first argument is fuel;
`input.length + 1` always suffices because every recursive step consumes
at least one byte. -/
def utf8LossyAux : Nat → List Nat → List Nat
  | 0, _ => []
  | fuel + 1, l =>
    match utf8Validate l with
    | none => l
    | some ⟨pos, some k⟩ =>
      l.take pos ++ [239, 191, 189] ++ utf8LossyAux fuel (l.drop (pos + k))
    | some ⟨pos, none⟩ => l.take pos ++ [239, 191, 189]

/-- Models `String::from_utf8_lossy`: borrowed original bytes when they
are entirely valid, otherwise an owned string with replacements. -/
def from_utf8_lossy (l : List Nat) : Cow :=
  match utf8Validate l with
  | none => .borrowed l
  | some _ => .owned (utf8LossyAux (l.length + 1) l)

/-- Models `CStr::to_string_lossy`: `String::from_utf8_lossy(self.to_bytes())`. -/
def CStr.to_string_lossy (v : CStr) : Cow := from_utf8_lossy v.to_bytes

/-- The owned branch of `from_utf8_lossy` as a function of the bytes
alone: `utf8LossyAux` at its sufficient fuel `length + 1`. Fuel
stability (`utf8LossyAux_fuel`) makes this the fuel-free meaning of the
chunk loop, so its recurrence equations characterize the substitution of
one U+FFFD per invalid sequence. -/
def utf8Lossy (l : List Nat) : List Nat := utf8LossyAux (l.length + 1) l

/-- Models `IntoStringError::into_cstring`. -/
def IntoStringError.into_cstring (e : IntoStringError) : CString := e.inner

/-- Models `IntoStringError::utf8_error`. -/
def IntoStringError.utf8_error (e : IntoStringError) : Utf8Error := e.error

/-- The sixteen lowercase hex digit characters, for the spec-side escape
table. -/
def lowerHexDigits : List Nat :=
  [48, 49, 50, 51, 52, 53, 54, 55, 56, 57, 97, 98, 99, 100, 101, 102]

/-- Written from the SPEC's rule table for the escape encoder (section
4.2), to be compared with the source-derived `escape_default` in C9:
tab, carriage-return, line-feed, backslash, single-quote, double-quote
escapes, printable range unescaped, all else a 4-character lowercase hex
escape. -/
def escapeSpec (c : Nat) : List Nat :=
  if c = 9 then [92, 116]
  else if c = 13 then [92, 114]
  else if c = 10 then [92, 110]
  else if c = 92 then [92, 92]
  else if c = 39 then [92, 39]
  else if c = 34 then [92, 34]
  else if 32 <= c && c <= 126 then [c]
  else [92, 120, lowerHexDigits.getD (c / 16) 0, lowerHexDigits.getD (c % 16) 0]

theorem memchr_eq_none_iff {x : Nat} :
    ∀ {l : List Nat}, memchr x l = none ↔ x ∉ l := by
  intro l
  induction l with
  | nil => simp [memchr]
  | cons b rest ih =>
    by_cases hb : b = x
    · subst hb; simp [memchr]
    · simp [memchr, hb, Option.map_eq_none', ih, Ne.symm hb]

theorem memchr_some_spec {x : Nat} :
    ∀ {l : List Nat} {i : Nat}, memchr x l = some i →
      i < l.length ∧ l.get? i = some x ∧ ∀ j, j < i → l.get? j ≠ some x := by
  intro l
  induction l with
  | nil => intro i h; simp [memchr] at h
  | cons b rest ih =>
    intro i h
    by_cases hb : b = x
    · simp [memchr, hb] at h
      subst h
      simp [hb]
    · simp [memchr, hb, Option.map_eq_some'] at h
      obtain ⟨i', hi', rfl⟩ := h
      obtain ⟨h1, h2, h3⟩ := ih hi'
      refine ⟨by simpa using h1, by simpa using h2, ?_⟩
      intro j hj
      cases j with
      | zero => simpa using hb
      | succ j' =>
        have := h3 j' (by omega)
        simpa using this

theorem memchr_isSome_of_mem {x : Nat} {l : List Nat} (h : x ∈ l) :
    ∃ i, memchr x l = some i := by
  rcases hm : memchr x l with _ | i
  · exact absurd h (memchr_eq_none_iff.mp hm)
  · exact ⟨i, rfl⟩

theorem strlen_append_zero {p : List Nat} (h : 0 ∉ p) :
    strlen (p ++ [0]) = p.length := by
  induction p with
  | nil => simp [strlen]
  | cons b rest ih =>
    have hb : b ≠ 0 := fun hb => h (hb ▸ List.mem_cons_self b rest)
    simp only [List.cons_append, strlen, hb, if_false, List.length_cons,
      List.append_eq]
    rw [ih (fun hr => h (List.mem_cons_of_mem b hr))]

/-- A nonempty list ending in zero splits as its `dropLast` plus `[0]`. -/
theorem eq_dropLast_append_zero {l : List Nat}
    (h2 : l.getLast? = some 0) : l = l.dropLast ++ [0] := by
  have := List.dropLast_append_getLast? 0 h2
  exact this.symm

/-- The three-part nul-buffer invariant is exactly being some zero-free
payload followed by a single zero. -/
theorem nulBuf_iff {l : List Nat} :
    (1 ≤ l.length ∧ l.getLast? = some 0 ∧ 0 ∉ l.dropLast) ↔
      ∃ p, l = p ++ [0] ∧ 0 ∉ p := by
  constructor
  · rintro ⟨_, h2, h3⟩
    exact ⟨l.dropLast, eq_dropLast_append_zero h2, h3⟩
  · rintro ⟨p, rfl, hp⟩
    refine ⟨by simp, List.getLast?_concat p, by simpa using hp⟩

theorem compareBytes_eq_iff :
    ∀ {a b : List Nat}, compareBytes a b = .eq ↔ a = b := by
  intro a
  induction a with
  | nil => intro b; cases b <;> simp [compareBytes]
  | cons x xs ih =>
    intro b
    cases b with
    | nil => simp [compareBytes]
    | cons y ys =>
      rcases hc : compare x y with hlt | heq | hgt
      · have : x ≠ y := by
          have := Nat.compare_eq_lt.mp hc; omega
        simp [compareBytes, hc, this]
      · have hxy : x = y := Nat.compare_eq_eq.mp hc
        subst hxy
        simp [compareBytes, hc, ih]
      · have : x ≠ y := by
          have := Nat.compare_eq_gt.mp hc; omega
        simp [compareBytes, hc, this]

/-- Appending the terminators does not change the comparison of two
zero-free payloads: the derived ordering on a `CString`'s full slice
agrees with the ordering on the logical bytes. -/
theorem compareBytes_append_zero :
    ∀ {p q : List Nat}, 0 ∉ p → 0 ∉ q →
      compareBytes (p ++ [0]) (q ++ [0]) = compareBytes p q := by
  intro p
  induction p with
  | nil =>
    intro q _ hq
    cases q with
    | nil => decide
    | cons y ys =>
      have hy : y ≠ 0 := fun h => hq (h ▸ List.mem_cons_self y ys)
      have : compare 0 y = .lt := Nat.compare_eq_lt.mpr (by omega)
      simp [compareBytes, this]
  | cons x xs ih =>
    intro q hp hq
    cases q with
    | nil =>
      have hx : x ≠ 0 := fun h => hp (h ▸ List.mem_cons_self x xs)
      have : compare x 0 = .gt := Nat.compare_eq_gt.mpr (by omega)
      simp [compareBytes, this]
    | cons y ys =>
      have hp' : 0 ∉ xs := fun h => hp (List.mem_cons_of_mem x h)
      have hq' : 0 ∉ ys := fun h => hq (List.mem_cons_of_mem y h)
      rcases hc : compare x y with hlt | heq | hgt <;>
        simp [compareBytes, hc, ih hp' hq']

theorem utf8Step_ok_cases {b n : Nat} {rest : List Nat}
    (h : utf8Step b rest = .ok n) :
    (n = 1 ∧ b < 128) ∨
    (n = 2 ∧ (194 ≤ b && b ≤ 223) = true ∧
      ∃ c tl, rest = c :: tl ∧ utf8Cont c = true) ∨
    (n = 3 ∧ (224 ≤ b && b ≤ 239) = true ∧
      ∃ c d tl, rest = c :: d :: tl ∧
        ((b == 224 && 160 ≤ c && c ≤ 191) ||
         (225 ≤ b && b ≤ 236 && utf8Cont c) ||
         (b == 237 && 128 ≤ c && c ≤ 159) ||
         (238 ≤ b && b ≤ 239 && utf8Cont c)) = true ∧ utf8Cont d = true) ∨
    (n = 4 ∧ (240 ≤ b && b ≤ 244) = true ∧
      ∃ c d e tl, rest = c :: d :: e :: tl ∧
        ((b == 240 && 144 ≤ c && c ≤ 191) ||
         (241 ≤ b && b ≤ 243 && utf8Cont c) ||
         (b == 244 && 128 ≤ c && c ≤ 143)) = true ∧
        utf8Cont d = true ∧ utf8Cont e = true) := by
  unfold utf8Step at h
  split_ifs at h with h1 h2 h3 h4
  · injection h with h; exact Or.inl ⟨h.symm, h1⟩
  · rcases rest with _ | ⟨c, tl⟩
    · simp at h
    · dsimp only at h
      split_ifs at h with hc
      injection h with h
      exact Or.inr (Or.inl ⟨h.symm, h2, c, tl, rfl, hc⟩)
  · rcases rest with _ | ⟨c, _ | ⟨d, tl⟩⟩
    · simp at h
    · dsimp only at h
      split_ifs at h
    · dsimp only at h
      split_ifs at h with hc hd
      injection h with h
      exact Or.inr (Or.inr (Or.inl ⟨h.symm, h3, c, d, tl, rfl, hc, hd⟩))
  · rcases rest with _ | ⟨c, _ | ⟨d, _ | ⟨e, tl⟩⟩⟩
    · simp at h
    · dsimp only at h
      split_ifs at h
    · dsimp only at h
      split_ifs at h
    · dsimp only at h
      split_ifs at h with hc hd he
      injection h with h
      exact Or.inr (Or.inr (Or.inr ⟨h.symm, h4, c, d, e, tl, rfl, hc, hd, he⟩))

theorem utf8Step_ok_pos {b n : Nat} {rest : List Nat}
    (h : utf8Step b rest = .ok n) : 1 ≤ n := by
  rcases utf8Step_ok_cases h with ⟨rfl, _⟩ | ⟨rfl, _⟩ | ⟨rfl, _⟩ | ⟨rfl, _⟩ <;>
    omega

/-- A successful `utf8Step` examines only the first `n - 1` following
bytes, so truncating anywhere past them cannot change the outcome. -/
theorem utf8Step_ok_take {b n m : Nat} {rest : List Nat}
    (h : utf8Step b rest = .ok n) (hm : n - 1 ≤ m) :
    utf8Step b (rest.take m) = .ok n := by
  rcases utf8Step_ok_cases h with ⟨rfl, h1⟩ | ⟨rfl, h1, c, tl, rfl, hc⟩ |
    ⟨rfl, h1, c, d, tl, rfl, hc, hd⟩ | ⟨rfl, h1, c, d, e, tl, rfl, hc, hd, he⟩
  · simp [utf8Step, h1]
  · obtain ⟨m', rfl⟩ : ∃ m', m = m' + 1 := ⟨m - 1, by omega⟩
    have hb' : 194 ≤ b ∧ b ≤ 223 := by simpa using h1
    have hn1 : ¬ b < 128 := by omega
    have ht : (c :: tl).take (m' + 1) = c :: tl.take m' := rfl
    rw [ht]
    simp [utf8Step, hn1, h1, hc]
  · obtain ⟨m', rfl⟩ : ∃ m', m = m' + 2 := ⟨m - 2, by omega⟩
    have hb' : 224 ≤ b ∧ b ≤ 239 := by simpa using h1
    have hn1 : ¬ b < 128 := by omega
    have hn2 : (194 ≤ b && b ≤ 223) = false := by simp; omega
    have ht : (c :: d :: tl).take (m' + 2) = c :: d :: tl.take m' := rfl
    rw [ht]
    simp only [utf8Step, hn1, if_false, hn2, Bool.false_eq_true, h1, if_true]
    simp [hc, hd]
  · obtain ⟨m', rfl⟩ : ∃ m', m = m' + 3 := ⟨m - 3, by omega⟩
    have hb' : 240 ≤ b ∧ b ≤ 244 := by simpa using h1
    have hn1 : ¬ b < 128 := by omega
    have hn2 : (194 ≤ b && b ≤ 223) = false := by simp; omega
    have hn3 : (224 ≤ b && b ≤ 239) = false := by simp; omega
    have ht : (c :: d :: e :: tl).take (m' + 3) = c :: d :: e :: tl.take m' :=
      rfl
    rw [ht]
    simp only [utf8Step, hn1, if_false, hn2, hn3, Bool.false_eq_true, h1,
      if_true]
    simp [hc, hd, he]

/-- The prefix of the input in front of `valid_up_to` is itself valid
UTF-8: the reported offset really marks the first invalid sequence. -/
theorem utf8Validate_take_valid :
    ∀ (l : List Nat) (u : Utf8Error), utf8Validate l = some u →
      utf8Validate (l.take u.valid_up_to) = none := by
  intro l
  induction l using utf8Validate.induct with
  | case1 =>
    intro u h
    simp [utf8Validate] at h
  | case2 b rest el hstep =>
    intro u h
    simp only [utf8Validate, hstep] at h
    injection h with h
    subst h
    simp [utf8Validate]
  | case3 b rest n hstep hv ih =>
    intro u h
    simp only [utf8Validate, hstep, hv] at h
    exact Option.noConfusion h
  | case4 b rest n hstep u' hv ih =>
    intro u h
    simp only [utf8Validate, hstep, hv, Option.some.injEq] at h
    subst h
    have hn : 1 ≤ n := utf8Step_ok_pos hstep
    obtain ⟨k, hk⟩ : ∃ k, u'.valid_up_to + n = k + 1 :=
      ⟨u'.valid_up_to + n - 1, by omega⟩
    show utf8Validate ((b :: rest).take (u'.valid_up_to + n)) = none
    rw [hk, List.take_succ_cons]
    have hstep' : utf8Step b (rest.take k) = .ok n :=
      utf8Step_ok_take hstep (by omega)
    have hdt : (rest.take k).drop (n - 1) =
        (rest.drop (n - 1)).take u'.valid_up_to := by
      rw [show k = (n - 1) + u'.valid_up_to by omega]
      exact (List.take_drop (n - 1) u'.valid_up_to rest).symm
    simp only [utf8Validate, hstep', hdt, ih u' hv]

theorem CString.new_ok {b : List Nat} (h : memchr 0 b = none) :
    CString.new b = .ok ⟨b ++ [0]⟩ := by
  simp [CString.new, h, CString.from_vec_unchecked]

theorem CString.new_err {b : List Nat} {i : Nat} (h : memchr 0 b = some i) :
    CString.new b = .error ⟨i, b⟩ := by
  simp [CString.new, h]

/-- When `memchr` finds its first zero exactly at the final position, the
buffer satisfies the nul-buffer invariant. -/
theorem nulBuf_of_memchr_last {b : List Nat} {i : Nat}
    (hm : memchr 0 b = some i) (hi : i + 1 = b.length) :
    1 ≤ b.length ∧ b.getLast? = some 0 ∧ 0 ∉ b.dropLast := by
  obtain ⟨hlt, hget, hfirst⟩ := memchr_some_spec hm
  refine ⟨by omega, ?_, ?_⟩
  · rw [List.getLast?_eq_get?, show b.length - 1 = i by omega]
    exact hget
  · intro hmem
    rw [List.dropLast_eq_take] at hmem
    obtain ⟨n, hn⟩ := List.mem_iff_get?.mp hmem
    have hnlen : n < (b.take (b.length - 1)).length := by
      rcases List.get?_eq_some.mp hn with ⟨h, _⟩
      exact h
    rw [List.length_take] at hnlen
    have hni : n < b.length - 1 := lt_of_lt_of_le hnlen (min_le_left _ _)
    rw [List.get?_take hni] at hn
    exact hfirst n (by omega) hn


instance {ε α : Type} [DecidableEq ε] [DecidableEq α] :
    DecidableEq (Except ε α) := fun x y =>
  match x, y with
  | .ok a, .ok b =>
    if h : a = b then isTrue (by rw [h]) else isFalse (by simp [h])
  | .error a, .error b =>
    if h : a = b then isTrue (by rw [h]) else isFalse (by simp [h])
  | .ok _, .error _ => isFalse (by simp)
  | .error _, .ok _ => isFalse (by simp)

/-- C1: every safely-constructed owned buffer — produced by `CString::new`,
`to_owned` on a valid view, `Default`, conversion from a validated view
(`from_bytes_with_nul` then `to_owned`), an `into_raw`/`from_raw` round
trip, the buffer retained inside an `into_string` failure, or the
`into_boxed_c_str`/`into_c_string` round trip — satisfies the invariant:
storage length at least 1, final byte 0, and no other byte 0. -/
theorem C1_invariant_all_constructions :
    (∀ b c, CString.new b = .ok c → c.Inv) ∧
    (∀ v : CStr, v.Inv → v.to_owned.Inv) ∧
    defaultCString.Inv ∧
    (∀ b v, CStr.from_bytes_with_nul b = .ok v → v.to_owned.Inv) ∧
    (∀ c : CString, c.Inv → (CString.from_raw c.into_raw).Inv) ∧
    (∀ c : CString, c.Inv → ∀ e, c.into_string = .error e → e.inner.Inv) ∧
    (∀ c : CString, c.Inv → c.into_boxed_c_str.into_c_string.Inv) := by
  have hnew : ∀ b c, CString.new b = .ok c → c.Inv := by
    intro b c h
    rcases hm : memchr 0 b with _ | i
    · rw [CString.new_ok hm] at h
      injection h with h
      subst h
      exact nulBuf_iff.mpr ⟨b, rfl, memchr_eq_none_iff.mp hm⟩
    · rw [CString.new_err hm] at h
      exact Except.noConfusion h
  refine ⟨hnew, ?_, ?_, ?_, ?_, ?_, ?_⟩
  · intro v hv
    exact hv
  · decide
  · intro b v h
    rcases hm : memchr 0 b with _ | i
    · simp [CStr.from_bytes_with_nul, hm] at h
    · simp only [CStr.from_bytes_with_nul, hm] at h
      split_ifs at h with hi
      injection h with h
      subst h
      show 1 ≤ b.length ∧ b.getLast? = some 0 ∧ 0 ∉ b.dropLast
      exact nulBuf_of_memchr_last hm (not_not.mp hi)
  · intro c hc
    obtain ⟨p, hp, hnp⟩ := nulBuf_iff.mp hc
    have heq : CString.from_raw c.into_raw = c := by
      unfold CString.from_raw CString.into_raw
      rw [hp, strlen_append_zero hnp,
        show p.length + 1 = (p ++ [0]).length by simp, List.take_length, ← hp]
    rw [heq]
    exact hc
  · intro c hc e h
    obtain ⟨p, hp, hnp⟩ := nulBuf_iff.mp hc
    have hbp : c.into_bytes = p := by
      unfold CString.into_bytes
      rw [hp, List.dropLast_concat]
    unfold CString.into_string string_from_utf8 at h
    rw [hbp] at h
    rcases hv : utf8Validate p with _ | u
    · rw [hv] at h
      dsimp only at h
      exact Except.noConfusion h
    · rw [hv] at h
      dsimp only at h
      injection h with h
      subst h
      show (CString.from_vec_unchecked p).Inv
      exact nulBuf_iff.mpr ⟨p, rfl, hnp⟩
  · intro c hc
    exact hc

/-- Witness for C1 at concrete inputs: `new [104, 105]`, the view
`[97, 0]`, `from_bytes_with_nul [102, 0]`, a raw round trip on
`[255, 0]`, the buffer kept by an `into_string` failure on the
invalid-UTF-8 buffer `[255, 0]`, and the boxed round trip. -/
theorem C1_invariant_all_constructions_witness :
    (CString.mk [104, 105, 0]).Inv ∧
    (CStr.mk [97, 0]).to_owned.Inv ∧
    defaultCString.Inv ∧
    (CStr.mk [102, 0]).to_owned.Inv ∧
    (CString.from_raw (CString.mk [255, 0]).into_raw).Inv ∧
    (IntoStringError.mk ⟨[255, 0]⟩ ⟨0, some 1⟩).inner.Inv ∧
    (CString.mk [97, 0]).into_boxed_c_str.into_c_string.Inv := by
  obtain ⟨h1, h2, h3, h4, h5, h6, h7⟩ := C1_invariant_all_constructions
  exact ⟨h1 [104, 105] ⟨[104, 105, 0]⟩ rfl, h2 ⟨[97, 0]⟩ (by decide), h3,
    h4 [102, 0] ⟨[102, 0]⟩ rfl, h5 ⟨[255, 0]⟩ (by decide),
    h6 ⟨[255, 0]⟩ (by decide) ⟨⟨[255, 0]⟩, ⟨0, some 1⟩⟩
      (by simp [CString.into_string, string_from_utf8, CString.into_bytes,
        CString.from_vec_unchecked, utf8Validate, utf8Step, utf8Cont]),
    h7 ⟨[97, 0]⟩ (by decide)⟩

theorem memchr_append_zero {p : List Nat} (h : 0 ∉ p) :
    memchr 0 (p ++ [0]) = some p.length := by
  induction p with
  | nil => simp [memchr]
  | cons b rest ih =>
    have hb : b ≠ 0 := fun hb => h (hb ▸ List.mem_cons_self b rest)
    simp only [List.cons_append, memchr, hb, if_false, List.length_cons,
      List.append_eq]
    rw [ih (fun hr => h (List.mem_cons_of_mem b hr))]
    rfl

theorem memchr_first_zero {b : List Nat} {p : Nat}
    (hget : b.get? p = some 0) (hfirst : ∀ j, j < p → b.get? j ≠ some 0) :
    memchr 0 b = some p := by
  have hmem : (0 : Nat) ∈ b := List.mem_iff_get?.mpr ⟨p, hget⟩
  obtain ⟨i, hm⟩ := memchr_isSome_of_mem hmem
  obtain ⟨hlt, higet, hifirst⟩ := memchr_some_spec hm
  rcases lt_trichotomy i p with hip | hip | hip
  · exact absurd higet (hfirst i hip)
  · exact hip ▸ hm
  · exact absurd hget (hifirst p hip)

/-- C2: for every byte sequence containing no zero byte, `CString::new`
succeeds, `as_bytes` on the result is exactly the input, and
`as_bytes_with_nul` is the input followed by exactly one zero byte. -/
theorem C2_create_preserves_bytes (b : List Nat) (h : 0 ∉ b) :
    ∃ c, CString.new b = .ok c ∧ c.as_bytes = b ∧
      c.as_bytes_with_nul = b ++ [0] := by
  have hm : memchr 0 b = none := memchr_eq_none_iff.mpr h
  refine ⟨⟨b ++ [0]⟩, CString.new_ok hm, ?_, rfl⟩
  unfold CString.as_bytes
  exact List.dropLast_concat

/-- Witness for C2 at the input `[102, 111, 111]` (`b"foo"`). -/
theorem C2_create_preserves_bytes_witness :
    (0 ∉ ([102, 111, 111] : List Nat)) ∧
    ∃ c, CString.new [102, 111, 111] = .ok c ∧
      c.as_bytes = [102, 111, 111] ∧
      c.as_bytes_with_nul = [102, 111, 111, 0] :=
  ⟨by decide, C2_create_preserves_bytes [102, 111, 111] (by decide)⟩

/-- C3 as frozen is false: it asks that `new` fail with position `p` for
EVERY offset `p` holding a zero strictly before the final position, but
`new` reports the FIRST zero. On `[0, 1, 0, 2]` with `p = 2` the reported
position is `0`, not `2`. -/
theorem C3_counterexample :
    ¬ (∀ (b : List Nat) (p : Nat), b.get? p = some 0 → p + 1 < b.length →
        ∃ e, CString.new b = .error e ∧ e.nul_position = p ∧
          e.into_vec = b) := by
  intro h
  obtain ⟨e, he, hpos, _⟩ := h [0, 1, 0, 2] 2 (by decide) (by decide)
  have hcomp : CString.new [0, 1, 0, 2] = .error ⟨0, [0, 1, 0, 2]⟩ := rfl
  rw [hcomp] at he
  injection he with he
  rw [← he] at hpos
  exact absurd hpos (by decide)

/-- C3 amended: for every byte sequence whose FIRST zero byte sits at
offset `p` strictly before the final position, `CString::new` fails with
`NulError` whose `nul_position` is `p` and whose `into_vec` returns the
input exactly. -/
theorem C3_first_nul_error (b : List Nat) (p : Nat)
    (hget : b.get? p = some 0) (hfirst : ∀ j, j < p → b.get? j ≠ some 0)
    (hlt : p + 1 < b.length) :
    ∃ e, CString.new b = .error e ∧ e.nul_position = p ∧ e.into_vec = b :=
  ⟨⟨p, b⟩, CString.new_err (memchr_first_zero hget hfirst), rfl, rfl⟩

/-- Witness for the amended C3 at `[102, 0, 111]`: first zero at offset 1,
strictly before the final position. -/
theorem C3_first_nul_error_witness :
    ([102, 0, 111] : List Nat).get? 1 = some 0 ∧
    (∀ j, j < 1 → ([102, 0, 111] : List Nat).get? j ≠ some 0) ∧
    1 + 1 < ([102, 0, 111] : List Nat).length ∧
    ∃ e, CString.new [102, 0, 111] = .error e ∧ e.nul_position = 1 ∧
      e.into_vec = [102, 0, 111] :=
  ⟨by decide, by decide, by decide,
    C3_first_nul_error [102, 0, 111] 1 (by decide) (by decide) (by decide)⟩

/-- C4: `CStr::from_bytes_with_nul` succeeds exactly when the input's only
zero byte is its final byte; when the first zero (at offset `p`) comes
strictly before the final position it fails with `InteriorNul p`; when no
zero exists at all (the empty slice included) it fails with
`NotNulTerminated`. -/
theorem C4_from_bytes_with_nul_spec (b : List Nat) :
    ((∃ v, CStr.from_bytes_with_nul b = .ok v) ↔
      (b.getLast? = some 0 ∧ 0 ∉ b.dropLast)) ∧
    (∀ p, b.get? p = some 0 → (∀ j, j < p → b.get? j ≠ some 0) →
      p + 1 < b.length →
      CStr.from_bytes_with_nul b =
        .error (FromBytesWithNulError.interior_nul p)) ∧
    (0 ∉ b → CStr.from_bytes_with_nul b =
      .error FromBytesWithNulError.not_nul_terminated) := by
  refine ⟨⟨?_, ?_⟩, ?_, ?_⟩
  · rintro ⟨v, hv⟩
    rcases hm : memchr 0 b with _ | i
    · simp [CStr.from_bytes_with_nul, hm] at hv
    · simp only [CStr.from_bytes_with_nul, hm] at hv
      split_ifs at hv with hi
      obtain ⟨_, h2, h3⟩ := nulBuf_of_memchr_last hm (not_not.mp hi)
      exact ⟨h2, h3⟩
  · rintro ⟨h2, h3⟩
    have hne : b ≠ [] := by
      intro h
      rw [h] at h2
      simp at h2
    have hb : b = b.dropLast ++ [0] := eq_dropLast_append_zero h2
    have hm : memchr 0 b = some b.dropLast.length := by
      rw [hb] at h3 ⊢
      rw [List.dropLast_concat] at h3 ⊢
      exact memchr_append_zero h3
    refine ⟨⟨b⟩, ?_⟩
    simp only [CStr.from_bytes_with_nul, hm]
    have hlen : b.dropLast.length + 1 = b.length := by
      rw [hb, List.dropLast_concat]
      simp
    rw [if_neg (by omega)]
    rfl
  · intro p hget hfirst hlt
    have hm : memchr 0 b = some p := memchr_first_zero hget hfirst
    simp only [CStr.from_bytes_with_nul, hm]
    rw [if_pos (by omega)]
  · intro h
    have hm : memchr 0 b = none := memchr_eq_none_iff.mpr h
    simp [CStr.from_bytes_with_nul, hm]

/-- Witness for C4: success on `[104, 0]`, `InteriorNul 1` on
`[104, 0, 105, 0]`, `NotNulTerminated` on the zero-free `[104]`. -/
theorem C4_from_bytes_with_nul_spec_witness :
    (∃ v, CStr.from_bytes_with_nul [104, 0] = .ok v) ∧
    CStr.from_bytes_with_nul [104, 0, 105, 0] =
      .error (FromBytesWithNulError.interior_nul 1) ∧
    CStr.from_bytes_with_nul [104] =
      .error FromBytesWithNulError.not_nul_terminated :=
  ⟨(C4_from_bytes_with_nul_spec [104, 0]).1.mpr (by decide),
    (C4_from_bytes_with_nul_spec [104, 0, 105, 0]).2.1 1 (by decide)
      (by decide) (by decide),
    (C4_from_bytes_with_nul_spec [104]).2.2 (by decide)⟩

/-- C5: on any owned buffer satisfying the invariant, exporting with
`into_raw` and reclaiming the same address with `from_raw` (which
recomputes the length via `strlen`) reproduces a buffer whose
`as_bytes_with_nul` equals the pre-export one. -/
theorem C5_export_reclaim_roundtrip (c : CString) (h : c.Inv) :
    (CString.from_raw c.into_raw).as_bytes_with_nul = c.as_bytes_with_nul := by
  obtain ⟨p, hp, hnp⟩ := nulBuf_iff.mp h
  unfold CString.from_raw CString.into_raw CString.as_bytes_with_nul
  rw [hp, strlen_append_zero hnp,
    show p.length + 1 = (p ++ [0]).length by simp, List.take_length]

/-- Witness for C5 at the buffer `[102, 111, 111, 0]` (`b"foo\0"`). -/
theorem C5_export_reclaim_roundtrip_witness :
    (CString.mk [102, 111, 111, 0]).Inv ∧
    (CString.from_raw
        (CString.mk [102, 111, 111, 0]).into_raw).as_bytes_with_nul =
      (CString.mk [102, 111, 111, 0]).as_bytes_with_nul :=
  ⟨by decide, C5_export_reclaim_roundtrip ⟨[102, 111, 111, 0]⟩ (by decide)⟩

/-- C10: `CString::new` also rejects input whose last byte is zero, even
with no earlier zero: it fails with a `NulError` whose position is the
offset of the first zero of the input and whose `into_vec` returns the
input exactly. -/
theorem C10_trailing_nul_rejected (b : List Nat)
    (hlast : b.getLast? = some 0) :
    ∃ e i, CString.new b = .error e ∧ e.nul_position = i ∧
      e.into_vec = b ∧ b.get? i = some 0 ∧
      ∀ j, j < i → b.get? j ≠ some 0 := by
  have hmem : (0 : Nat) ∈ b := by
    rw [List.getLast?_eq_get?] at hlast
    exact List.mem_iff_get?.mpr ⟨_, hlast⟩
  obtain ⟨i, hm⟩ := memchr_isSome_of_mem hmem
  obtain ⟨hlt, hget, hfirst⟩ := memchr_some_spec hm
  exact ⟨⟨i, b⟩, i, CString.new_err hm, rfl, rfl, hget, hfirst⟩

/-- Witness for C10 at `[102, 0]` (`b"f\0"`): only zero is the final
byte, and `new` still rejects it, at position 1. -/
theorem C10_trailing_nul_rejected_witness :
    ([102, 0] : List Nat).getLast? = some 0 ∧
    ∃ e i, CString.new [102, 0] = .error e ∧ e.nul_position = i ∧
      e.into_vec = [102, 0] ∧ ([102, 0] : List Nat).get? i = some 0 ∧
      ∀ j, j < i → ([102, 0] : List Nat).get? j ≠ some 0 :=
  ⟨by decide, C10_trailing_nul_rejected [102, 0] (by decide)⟩

/-- Two buffers both ending in their terminator and with equal logical
bytes have equal storage. -/
theorem append_zero_inj {l1 l2 : List Nat} (h1 : l1.getLast? = some 0)
    (h2 : l2.getLast? = some 0) (h : l1.dropLast = l2.dropLast) :
    l1 = l2 := by
  rw [eq_dropLast_append_zero h1, eq_dropLast_append_zero h2, h]

/-- C6: equality, ordering and hashing of views and owned buffers are all
functions of the logical bytes (the bytes excluding the terminator): for
views, `eq` and `cmp` compare exactly `to_bytes` and the hash input is
determined by (and determines) the logical bytes; for valid owned buffers
the derived comparisons on the full storage agree with comparisons of the
logical bytes; and a view and a valid owned buffer with identical logical
bytes compare equal and hash identically. -/
theorem C6_compare_hash_logical_bytes :
    (∀ a b : CStr, a.eqv b = true ↔ a.to_bytes = b.to_bytes) ∧
    (∀ a b : CStr, a.cmp b = .eq ↔ a.to_bytes = b.to_bytes) ∧
    (∀ a b : CStr, a.Inv → b.Inv →
      (a.to_bytes = b.to_bytes ↔ a.hashInput = b.hashInput)) ∧
    (∀ a b : CString, a.Inv → b.Inv →
      (a.eqv b = true ↔ a.as_bytes = b.as_bytes) ∧
      a.cmp b = compareBytes a.as_bytes b.as_bytes ∧
      (a.as_bytes = b.as_bytes ↔ a.hashInput = b.hashInput)) ∧
    (∀ (v : CStr) (c : CString),
      v.eqv c.as_c_str = true ↔ v.to_bytes = c.as_bytes) ∧
    (∀ (v : CStr) (c : CString), v.Inv → c.Inv →
      v.to_bytes = c.as_bytes → v.hashInput = c.hashInput) := by
  refine ⟨?_, ?_, ?_, ?_, ?_, ?_⟩
  · intro a b
    simp [CStr.eqv]
  · intro a b
    exact compareBytes_eq_iff
  · intro a b ha hb
    constructor
    · intro h
      have he : a.inner = b.inner := append_zero_inj ha.2.1 hb.2.1 h
      unfold CStr.hashInput
      rw [he]
    · intro h
      unfold CStr.hashInput at h
      injection h with h1 h2
      unfold CStr.to_bytes
      rw [h2]
  · intro a b ha hb
    obtain ⟨p, hp, hnp⟩ := nulBuf_iff.mp ha
    obtain ⟨q, hq, hnq⟩ := nulBuf_iff.mp hb
    refine ⟨?_, ?_, ?_⟩
    · unfold CString.eqv CString.as_bytes
      rw [hp, hq, List.dropLast_concat, List.dropLast_concat]
      simp
    · unfold CString.cmp CString.as_bytes
      rw [hp, hq, List.dropLast_concat, List.dropLast_concat]
      exact compareBytes_append_zero hnp hnq
    · constructor
      · intro h
        have he : a.inner = b.inner := append_zero_inj ha.2.1 hb.2.1 h
        unfold CString.hashInput
        rw [he]
      · intro h
        unfold CString.hashInput at h
        injection h with h1 h2
        unfold CString.as_bytes
        rw [h2]
  · intro v c
    simp [CStr.eqv, CStr.to_bytes, CString.as_c_str,
      CStr.from_bytes_with_nul_unchecked, CString.as_bytes_with_nul,
      CString.as_bytes]
  · intro v c hv hc hb
    have he : v.inner = c.inner := append_zero_inj hv.2.1 hc.2.1 hb
    unfold CStr.hashInput CString.hashInput
    rw [he]

/-- Witness for C6 at the view/buffer pair over `[49, 0]` (`b"1\0"`). -/
theorem C6_compare_hash_logical_bytes_witness :
    (CStr.mk [49, 0]).eqv ⟨[49, 0]⟩ = true ∧
    (CStr.mk [49, 0]).cmp ⟨[49, 0]⟩ = .eq ∧
    (CStr.mk [49, 0]).hashInput = (CStr.mk [49, 0]).hashInput ∧
    (CString.mk [49, 0]).eqv ⟨[49, 0]⟩ = true ∧
    (CString.mk [49, 0]).cmp ⟨[49, 0]⟩ =
      compareBytes (CString.mk [49, 0]).as_bytes
        (CString.mk [49, 0]).as_bytes ∧
    (CStr.mk [49, 0]).eqv (CString.mk [49, 0]).as_c_str = true ∧
    (CStr.mk [49, 0]).hashInput = (CString.mk [49, 0]).hashInput := by
  obtain ⟨h1, h2, h3, h4, h5, h6⟩ := C6_compare_hash_logical_bytes
  exact ⟨(h1 ⟨[49, 0]⟩ ⟨[49, 0]⟩).mpr rfl,
    (h2 ⟨[49, 0]⟩ ⟨[49, 0]⟩).mpr rfl,
    (h3 ⟨[49, 0]⟩ ⟨[49, 0]⟩ (by decide) (by decide)).mp rfl,
    (h4 ⟨[49, 0]⟩ ⟨[49, 0]⟩ (by decide) (by decide)).1.mpr rfl,
    (h4 ⟨[49, 0]⟩ ⟨[49, 0]⟩ (by decide) (by decide)).2.1,
    (h5 ⟨[49, 0]⟩ ⟨[49, 0]⟩).mpr rfl,
    h6 ⟨[49, 0]⟩ ⟨[49, 0]⟩ (by decide) (by decide) rfl⟩

/-- C7: for a valid owned buffer, `into_string` succeeds with exactly the
logical payload when the payload is valid UTF-8; otherwise it fails with
an error that retains the original buffer unchanged (`into_cstring`
yields a buffer with the same `as_bytes_with_nul`) together with the
validator's `Utf8Error`, whose offset marks the first invalid sequence
(the payload before it validates cleanly). -/
theorem C7_into_string_spec (c : CString) (h : c.Inv) :
    (utf8Validate c.as_bytes = none → c.into_string = .ok c.as_bytes) ∧
    (∀ u, utf8Validate c.as_bytes = some u →
      ∃ e, c.into_string = .error e ∧
        e.into_cstring.as_bytes_with_nul = c.as_bytes_with_nul ∧
        e.utf8_error = u ∧
        utf8Validate (c.as_bytes.take u.valid_up_to) = none) := by
  obtain ⟨p, hp, hnp⟩ := nulBuf_iff.mp h
  have hab : c.inner.dropLast = p := by
    rw [hp, List.dropLast_concat]
  constructor
  · intro hv
    unfold CString.as_bytes at hv ⊢
    unfold CString.into_string string_from_utf8 CString.into_bytes
    rw [hab] at hv ⊢
    rw [hv]
  · intro u hv
    unfold CString.as_bytes at hv
    rw [hab] at hv
    refine ⟨⟨CString.from_vec_unchecked p, u⟩, ?_, ?_, rfl, ?_⟩
    · unfold CString.into_string string_from_utf8 CString.into_bytes
      rw [hab, hv]
    · show (CString.from_vec_unchecked p).inner = c.inner
      unfold CString.from_vec_unchecked
      rw [hp]
    · unfold CString.as_bytes
      rw [hab]
      exact utf8Validate_take_valid p u hv

/-- Witness for C7: success on the ASCII buffer `[104, 0]`, failure with
offset 0 and retained bytes on the invalid buffer `[255, 0]`. -/
theorem C7_into_string_spec_witness :
    (CString.mk [104, 0]).Inv ∧
    utf8Validate (CString.mk [104, 0]).as_bytes = none ∧
    (CString.mk [104, 0]).into_string = .ok (CString.mk [104, 0]).as_bytes ∧
    (CString.mk [255, 0]).Inv ∧
    utf8Validate (CString.mk [255, 0]).as_bytes =
      some ⟨0, some 1⟩ ∧
    ∃ e, (CString.mk [255, 0]).into_string = .error e ∧
      e.into_cstring.as_bytes_with_nul =
        (CString.mk [255, 0]).as_bytes_with_nul ∧
      e.utf8_error = ⟨0, some 1⟩ ∧
      utf8Validate ((CString.mk [255, 0]).as_bytes.take
        (Utf8Error.mk 0 (some 1)).valid_up_to) = none := by
  have hv1 : utf8Validate (CString.mk [104, 0]).as_bytes = none := by
    simp [CString.as_bytes, utf8Validate, utf8Step]
  have hv2 : utf8Validate (CString.mk [255, 0]).as_bytes =
      some ⟨0, some 1⟩ := by
    simp [CString.as_bytes, utf8Validate, utf8Step, utf8Cont]
  exact ⟨by decide, hv1, (C7_into_string_spec ⟨[104, 0]⟩ (by decide)).1 hv1,
    by decide, hv2,
    (C7_into_string_spec ⟨[255, 0]⟩ (by decide)).2 ⟨0, some 1⟩ hv2⟩


/-- C9: for every byte, the escape encoder's emitted sequence follows the
spec's ordered rule table exactly (`escapeSpec`, written from the spec),
has at most 4 elements, and its length equals the iterator's advertised
exact length; in particular 0x09 gives `[92, 116]` (`\t`), 0x41 gives
`[65]` (`A`), and 0x9D gives `[92, 120, 57, 100]` (`\x9d`). -/
theorem C9_escape_default_spec :
    (∀ c, c < 256 → escapeItems c = escapeSpec c ∧
      (escapeItems c).length = (escape_default c).2 ∧
      (escapeItems c).length ≤ 4) ∧
    escapeItems 9 = [92, 116] ∧
    escapeItems 65 = [65] ∧
    escapeItems 157 = [92, 120, 57, 100] := by
  refine ⟨?_, by decide, by decide, by decide⟩
  decide

/-- Witness for C9 at the byte 0x9D = 157. -/
theorem C9_escape_default_spec_witness :
    (157 : Nat) < 256 ∧
    escapeItems 157 = escapeSpec 157 ∧
    (escapeItems 157).length = (escape_default 157).2 ∧
    (escapeItems 157).length ≤ 4 :=
  ⟨by decide, (C9_escape_default_spec.1 157 (by decide)).1,
    (C9_escape_default_spec.1 157 (by decide)).2.1,
    (C9_escape_default_spec.1 157 (by decide)).2.2⟩

/-- Every definite error span reported by `utf8Step` covers at least one
byte (the source's error lengths are 1, 2 or 3). -/
theorem utf8Step_err_len {b k : Nat} {rest : List Nat}
    (h : utf8Step b rest = .error (some k)) : 1 ≤ k := by
  rcases rest with _ | ⟨c, _ | ⟨d, _ | ⟨e, tl⟩⟩⟩ <;>
    (unfold utf8Step at h
     dsimp only at h
     split_ifs at h <;> (simp at h <;> omega))

/-- The error span propagated by the validator is at least one byte. -/
theorem utf8Validate_some_errlen :
    ∀ (b : List Nat) (pos k : Nat),
      utf8Validate b = some ⟨pos, some k⟩ → 1 ≤ k := by
  intro b
  induction b using utf8Validate.induct with
  | case1 =>
    intro pos k h
    simp [utf8Validate] at h
  | case2 b rest el hstep =>
    intro pos k h
    simp only [utf8Validate, hstep, Option.some.injEq,
      Utf8Error.mk.injEq] at h
    exact utf8Step_err_len (h.2 ▸ hstep)
  | case3 b rest n hstep hv ih =>
    intro pos k h
    simp only [utf8Validate, hstep, hv] at h
    exact Option.noConfusion h
  | case4 b rest n hstep u' hv ih =>
    intro pos k h
    simp only [utf8Validate, hstep, hv, Option.some.injEq,
      Utf8Error.mk.injEq] at h
    rcases u' with ⟨vut, el⟩
    rcases h with ⟨h1, h2⟩
    exact ih vut k (by rw [← h2]; exact hv)

theorem utf8LossyAux_nil (fuel : Nat) : utf8LossyAux fuel [] = [] := by
  cases fuel with
  | zero => rfl
  | succ f => simp [utf8LossyAux, utf8Validate]

/-- The lossy chunk loop does not depend on the fuel once the fuel covers
the input length: every step consumes at least one byte. -/
theorem utf8LossyAux_fuel :
    ∀ (n : Nat) (b : List Nat) (f1 f2 : Nat), b.length ≤ n →
      b.length ≤ f1 → b.length ≤ f2 →
      utf8LossyAux f1 b = utf8LossyAux f2 b := by
  intro n
  induction n with
  | zero =>
    intro b f1 f2 hn _ _
    have hb : b = [] := List.length_eq_zero.mp (by omega)
    subst hb
    rw [utf8LossyAux_nil, utf8LossyAux_nil]
  | succ n ih =>
    intro b f1 f2 hn h1 h2
    rcases b with _ | ⟨x, xs⟩
    · rw [utf8LossyAux_nil, utf8LossyAux_nil]
    · have hl : (x :: xs).length = xs.length + 1 := rfl
      obtain ⟨g1, rfl⟩ : ∃ g, f1 = g + 1 := ⟨f1 - 1, by rw [hl] at h1; omega⟩
      obtain ⟨g2, rfl⟩ : ∃ g, f2 = g + 1 := ⟨f2 - 1, by rw [hl] at h2; omega⟩
      rcases hv : utf8Validate (x :: xs) with _ | ⟨pos, el⟩
      · simp only [utf8LossyAux, hv]
      · rcases el with _ | k
        · simp only [utf8LossyAux, hv]
        · have hk : 1 ≤ k := utf8Validate_some_errlen (x :: xs) pos k hv
          simp only [utf8LossyAux, hv]
          congr 1
          apply ih ((x :: xs).drop (pos + k)) g1 g2 <;>
            (simp only [List.length_drop, hl]
             omega)

/-- `utf8Lossy` is the identity on valid UTF-8 input. -/
theorem utf8Lossy_valid {b : List Nat} (h : utf8Validate b = none) :
    utf8Lossy b = b := by
  unfold utf8Lossy
  simp only [utf8LossyAux, h]

/-- At an invalid sequence spanning `k` bytes at offset `pos`,
`utf8Lossy` keeps the valid prefix, emits one U+FFFD, and continues with
the bytes after the sequence. -/
theorem utf8Lossy_replace {b : List Nat} {pos k : Nat}
    (h : utf8Validate b = some ⟨pos, some k⟩) :
    utf8Lossy b = b.take pos ++ [239, 191, 189] ++
      utf8Lossy (b.drop (pos + k)) := by
  have hstep : utf8LossyAux (b.length + 1) b =
      b.take pos ++ [239, 191, 189] ++
        utf8LossyAux b.length (b.drop (pos + k)) := by
    simp only [utf8LossyAux, h]
  have hfuel : utf8LossyAux b.length (b.drop (pos + k)) =
      utf8LossyAux ((b.drop (pos + k)).length + 1) (b.drop (pos + k)) := by
    apply utf8LossyAux_fuel (b.drop (pos + k)).length _ _ _ le_rfl
    · simp only [List.length_drop]
      omega
    · omega
  show utf8LossyAux (b.length + 1) b = _
  rw [hstep, hfuel]
  rfl

/-- At a sequence truncated by the end of the input, `utf8Lossy` keeps
the valid prefix and emits one final U+FFFD. -/
theorem utf8Lossy_truncated {b : List Nat} {pos : Nat}
    (h : utf8Validate b = some ⟨pos, none⟩) :
    utf8Lossy b = b.take pos ++ [239, 191, 189] := by
  unfold utf8Lossy
  simp only [utf8LossyAux, h]

/-- C8: `to_string_lossy` returns the original bytes as a borrowed
(non-allocating) result when they are entirely valid UTF-8, and on EVERY
view containing an invalid sequence it returns an owned string, namely
`utf8Lossy` of the logical bytes. `utf8Lossy` substitutes the
standard replacement character U+FFFD (UTF-8 bytes 239, 191, 189) at the
position of each invalid sequence: on valid input it is the identity; at
an invalid sequence of span `k` whose offset `pos` marks the first
invalid position (the prefix before it validates cleanly) it keeps that
valid prefix, emits one U+FFFD, and recursively processes the remainder
after the sequence — so every further invalid sequence is substituted in
turn; and at a sequence truncated by the end of input it keeps the valid
prefix and emits one final U+FFFD. -/
theorem C8_to_string_lossy_spec :
    (∀ v : CStr, utf8Validate v.to_bytes = none →
      v.to_string_lossy = .borrowed v.to_bytes) ∧
    (∀ (v : CStr) (u : Utf8Error), utf8Validate v.to_bytes = some u →
      v.to_string_lossy = .owned (utf8Lossy v.to_bytes)) ∧
    (∀ b : List Nat, utf8Validate b = none → utf8Lossy b = b) ∧
    (∀ (b : List Nat) (pos k : Nat),
      utf8Validate b = some ⟨pos, some k⟩ →
      utf8Validate (b.take pos) = none ∧
      utf8Lossy b = b.take pos ++ [239, 191, 189] ++
        utf8Lossy (b.drop (pos + k))) ∧
    (∀ (b : List Nat) (pos : Nat),
      utf8Validate b = some ⟨pos, none⟩ →
      utf8Validate (b.take pos) = none ∧
      utf8Lossy b = b.take pos ++ [239, 191, 189]) := by
  refine ⟨?_, ?_, ?_, ?_, ?_⟩
  · intro v hv
    unfold CStr.to_string_lossy from_utf8_lossy
    rw [hv]
  · intro v u hv
    unfold CStr.to_string_lossy from_utf8_lossy
    rw [hv]
    rfl
  · intro b hv
    exact utf8Lossy_valid hv
  · intro b pos k hv
    exact ⟨utf8Validate_take_valid b ⟨pos, some k⟩ hv, utf8Lossy_replace hv⟩
  · intro b pos hv
    exact ⟨utf8Validate_take_valid b ⟨pos, none⟩ hv, utf8Lossy_truncated hv⟩

/-- Witness for C8: borrowed result on the valid view `[104, 0]`; on the
DOUBLY-invalid view `[255, 255, 0]` an owned result whose bytes unfold,
by two applications of the substitution equation and one of the identity
equation, to two replacement characters; and the truncated-sequence view
`[49, 50, 51, 226, 0]` (the repository's own `b"123\xE2\0"` test case)
with one trailing replacement. -/
theorem C8_to_string_lossy_spec_witness :
    utf8Validate (CStr.mk [104, 0]).to_bytes = none ∧
    (CStr.mk [104, 0]).to_string_lossy =
      .borrowed (CStr.mk [104, 0]).to_bytes ∧
    utf8Validate (CStr.mk [255, 255, 0]).to_bytes = some ⟨0, some 1⟩ ∧
    (CStr.mk [255, 255, 0]).to_string_lossy =
      .owned (utf8Lossy [255, 255]) ∧
    (utf8Validate (([255, 255] : List Nat).take 0) = none ∧
      utf8Lossy [255, 255] = ([255, 255] : List Nat).take 0 ++
        [239, 191, 189] ++ utf8Lossy (([255, 255] : List Nat).drop (0 + 1))) ∧
    (utf8Validate (([255] : List Nat).take 0) = none ∧
      utf8Lossy [255] = ([255] : List Nat).take 0 ++ [239, 191, 189] ++
        utf8Lossy (([255] : List Nat).drop (0 + 1))) ∧
    utf8Lossy ([] : List Nat) = [] ∧
    utf8Lossy [255, 255] = [239, 191, 189, 239, 191, 189] ∧
    utf8Validate (CStr.mk [49, 50, 51, 226, 0]).to_bytes = some ⟨3, none⟩ ∧
    (utf8Validate (([49, 50, 51, 226] : List Nat).take 3) = none ∧
      utf8Lossy [49, 50, 51, 226] =
        ([49, 50, 51, 226] : List Nat).take 3 ++ [239, 191, 189]) := by
  obtain ⟨hb, ho, hid, hrep, htr⟩ := C8_to_string_lossy_spec
  have h1 : utf8Validate (CStr.mk [104, 0]).to_bytes = none := by
    simp [CStr.to_bytes, utf8Validate, utf8Step]
  have h2 : utf8Validate ([255, 255] : List Nat) = some ⟨0, some 1⟩ := by
    simp [utf8Validate, utf8Step, utf8Cont]
  have h3 : utf8Validate ([255] : List Nat) = some ⟨0, some 1⟩ := by
    simp [utf8Validate, utf8Step, utf8Cont]
  have h0 : utf8Validate ([] : List Nat) = none := by
    simp [utf8Validate]
  have h4 : utf8Validate ([49, 50, 51, 226] : List Nat) = some ⟨3, none⟩ := by
    simp [utf8Validate, utf8Step, utf8Cont]
  have hr2 := hrep [255, 255] 0 1 h2
  have hr3 := hrep [255] 0 1 h3
  have hnil := hid [] h0
  have hfull : utf8Lossy [255, 255] = [239, 191, 189, 239, 191, 189] := by
    have e2 : utf8Lossy [255, 255] = [239, 191, 189] ++ utf8Lossy [255] :=
      hr2.2
    have e3 : utf8Lossy [255] = [239, 191, 189] ++ utf8Lossy [] := hr3.2
    rw [e2, e3, hnil]
    rfl
  exact ⟨h1, hb ⟨[104, 0]⟩ h1, h2, ho ⟨[255, 255, 0]⟩ ⟨0, some 1⟩ h2, hr2,
    hr3, hnil, hfull, h4, htr [49, 50, 51, 226] 3 h4⟩
